import Mathlib

/-!
Verification development for the `interner` crate: a deduplicating byte-content
arena with an alignment-aware buffer pool (`src/inner.rs`, `src/util.rs`), a
typed slice builder (`src/builder.rs`), and thin access wrappers
(`src/sync.rs`, `src/unsync.rs`).

The embedding models buffers as records carrying a base address (a natural
number standing for the machine address of the backing allocation), a byte
capacity, and the list of initialized bytes.  Fresh allocations receive their
base address as an explicit parameter, since the allocator's placement choice
is not determined by the program.  Machine integers are modelled as `Nat` with
explicit overflow checks where the source performs checked arithmetic.
-/

/-- Value of `usize::MAX` on the 64-bit targets the crate is built for. -/
def USIZE_MAX : Nat := 2 ^ 64 - 1

/-- Fuel-bounded count of trailing zero bits, mirroring the hardware
`trailing_zeros` loop; `tzFuel 64 n` is the u64 trailing-zero count for
`0 < n < 2 ^ 64`. -/
def tzFuel : Nat → Nat → Nat
  | 0, _ => 0
  | f + 1, n => if n % 2 = 1 then 0 else tzFuel f (n / 2) + 1

/-- Model of `usize::trailing_zeros`: 64 for zero, otherwise the number of
trailing zero bits. -/
def trailing_zeros (n : Nat) : Nat :=
  if n = 0 then 64 else tzFuel 64 n

/-- Model of `util::is_aligned_to`: compares trailing-zero counts of the
alignment and the pointer, exactly as
`(ptr as usize).trailing_zeros() >= align.trailing_zeros()`. -/
def is_aligned_to (align ptr : Nat) : Bool :=
  decide (trailing_zeros align ≤ trailing_zeros ptr)

/-- Model of `util::align_offset`: byte offset required to align `ptr` to
`align`, computed with the mask trick `(align - (ptr & mask)) & mask` from the
source. -/
def align_offset (align ptr : Nat) : Nat :=
  let mask := align - 1
  (align - (ptr &&& mask)) &&& mask

/-- Decides whether the first list occurs at the head of the second
(byte-for-byte). -/
def leadsList : List Nat → List Nat → Bool
  | [], _ => true
  | _ :: _, [] => false
  | a :: as, b :: bs => a == b && leadsList as bs

/-- Helper scanning a haystack from index `i`, returning the first index at
which the needle occurs. -/
def memmemFindAux (needle : List Nat) : List Nat → Nat → Option Nat
  | [], i => if leadsList needle [] then some i else none
  | l@(_ :: t), i => if leadsList needle l then some i else memmemFindAux needle t (i + 1)

/-- Model of `memchr::memmem::find`: index of the leftmost occurrence of
`needle` in `haystack` (`some 0` for an empty needle). -/
def memmemFind (haystack needle : List Nat) : Option Nat :=
  memmemFindAux needle haystack 0

/-- A byte buffer owned by the pool: base address of its allocation, byte
capacity, and its initialized bytes (logical length = `data.length`). -/
structure Buf where
  base : Nat
  cap : Nat
  data : List Nat
deriving DecidableEq

/-- An interned reference: the address it points at and the bytes it views. -/
structure Ref where
  addr : Nat
  bytes : List Nat
deriving DecidableEq

/-- The empty reference `&[]` returned for empty inputs; its (dangling)
address is irrelevant to the observable byte content. -/
def emptyRef : Ref := ⟨1, []⟩

/-- Model of `inner::DataInternerInner`: the pool of full and non-full
buffers. -/
structure DataInternerInner where
  full_buffers : List Buf
  nonfull_buffers : List Buf
deriving DecidableEq

namespace DataInternerInner

/-- Model of `DataInternerInner::new`. -/
def new : DataInternerInner := ⟨[], []⟩

/-- Truncates a buffer to logical length 0 while keeping its allocation
(base address and capacity), as `Vec::clear` does. -/
def clearBuf (b : Buf) : Buf := ⟨b.base, b.cap, []⟩

/-- Model of `DataInternerInner::clear`: clears every non-full buffer in
place, then drains the full buffers in order, clearing each and pushing it
onto the non-full list. -/
def clear (s : DataInternerInner) : DataInternerInner :=
  ⟨[], s.nonfull_buffers.map clearBuf ++ s.full_buffers.map clearBuf⟩

/-- Search for `value` within one buffer: take the leftmost occurrence
reported by `memmem::find`; if its start address fails the alignment check
the buffer yields nothing (the source then `continue`s to the next buffer). -/
def findInBuf (value : List Nat) (align : Nat) (buf : Buf) : Option Ref :=
  match memmemFind buf.data value with
  | none => none
  | some idx =>
    if is_aligned_to align (buf.base + idx) then
      some ⟨buf.base + idx, (buf.data.drop idx).take value.length⟩
    else
      none

/-- Model of `DataInternerInner::find_bytes_with_align`: scan the full
buffers in order, then the non-full buffers in order. -/
def find_bytes_with_align (s : DataInternerInner) (value : List Nat) (align : Nat) :
    Option Ref :=
  match s.full_buffers.findSome? (findInBuf value align) with
  | some r => some r
  | none => s.nonfull_buffers.findSome? (findInBuf value align)

/-- Model of `DataInternerInner::find_bytes` (alignment 1). -/
def find_bytes (s : DataInternerInner) (value : List Nat) : Option Ref :=
  find_bytes_with_align s value 1

/-- Model of `DataInternerInner::add_owned_bytes`: ignore capacity-0 vectors;
freeze exactly-full vectors into the full list (no reallocation, so the
returned reference keeps the vector's own base address); otherwise keep the
vector, slack included, in the non-full list. -/
def add_owned_bytes (s : DataInternerInner) (v : Buf) : Ref × DataInternerInner :=
  if v.cap = 0 then
    (emptyRef, s)
  else if v.data.length = v.cap then
    (⟨v.base, v.data⟩, ⟨s.full_buffers ++ [v], s.nonfull_buffers⟩)
  else
    (⟨v.base, v.data⟩, ⟨s.full_buffers, s.nonfull_buffers ++ [v]⟩)

/-- One candidate step of the append loop in `add_bytes_with_align`: try to
place `value` at the aligned tail of buffer `b`.  On success, returns the
updated buffer (alignment filler bytes `b'\n'` = 10 then `value`) and the
byte index at which `value` starts. -/
def tryAppend (value : List Nat) (align : Nat) (b : Buf) : Option (Buf × Nat) :=
  let remaining := b.cap - b.data.length
  if remaining < value.length then none
  else
    let ptr := b.base + b.data.length
    let offset := align_offset align ptr
    if offset > remaining then none
    else if remaining - offset < value.length then none
    else some (⟨b.base, b.cap, b.data ++ List.replicate offset 10 ++ value⟩,
               b.data.length + offset)

/-- Index-tracking scan for the first non-full buffer that accepts the
append, mirroring `iter_mut().enumerate()` with `continue` on rejection. -/
def firstAccept (value : List Nat) (align : Nat) : List Buf → Nat → Option (Nat × Buf × Nat)
  | [], _ => none
  | b :: bs, i =>
    match tryAppend value align b with
    | some (b2, st) => some (i, b2, st)
    | none => firstAccept value align bs (i + 1)

/-- Model of `Vec::swap_remove`: overwrite index `i` with the last element,
then drop the last element. -/
def swapRemove {α : Type} (l : List α) (i : Nat) : List α :=
  match l.getLast? with
  | none => l
  | some x => (l.set i x).dropLast

/-- Model of `DataInternerInner::add_bytes_with_align`.  First buffer that
fits (after alignment padding) receives the bytes; a buffer made exactly full
is moved to the full list by `swap_remove` + push.  Otherwise a fresh buffer
is allocated at `freshBase`: for alignment 1 a 1024-byte-minimum vector is
filled and absorbed through `add_owned_bytes`; for larger alignment a vector
of capacity `max (len + align - 1) 1024` is padded to alignment and placed in
the full or non-full list according to whether it ended exactly full. -/
def add_bytes_with_align (s : DataInternerInner) (value : List Nat) (align : Nat)
    (freshBase : Nat) : Ref × DataInternerInner :=
  match firstAccept value align s.nonfull_buffers 0 with
  | some (i, b, st) =>
    let r : Ref := ⟨b.base + st, (b.data.drop st).take value.length⟩
    let nb := s.nonfull_buffers.set i b
    if b.data.length = b.cap then
      (r, ⟨s.full_buffers ++ [b], swapRemove nb i⟩)
    else
      (r, ⟨s.full_buffers, nb⟩)
  | none =>
    if align = 1 then
      if value.length < 1024 then
        add_owned_bytes s ⟨freshBase, 1024, value⟩
      else
        add_owned_bytes s ⟨freshBase, value.length, value⟩
    else
      let cap := Nat.max (value.length + align - 1) 1024
      let offset := align_offset align freshBase
      let data := List.replicate offset 10 ++ value
      let b : Buf := ⟨freshBase, cap, data⟩
      let r : Ref := ⟨freshBase + offset, (data.drop offset).take value.length⟩
      if data.length = cap then
        (r, ⟨s.full_buffers ++ [b], s.nonfull_buffers⟩)
      else
        (r, ⟨s.full_buffers, s.nonfull_buffers ++ [b]⟩)

/-- Model of `DataInternerInner::add_bytes` (alignment 1). -/
def add_bytes (s : DataInternerInner) (value : List Nat) (freshBase : Nat) :
    Ref × DataInternerInner :=
  add_bytes_with_align s value 1 freshBase

/-- Model of `DataInternerInner::find_or_add_bytes`: find at alignment 1,
add on miss. -/
def find_or_add_bytes (s : DataInternerInner) (value : List Nat) (freshBase : Nat) :
    Ref × DataInternerInner :=
  match find_bytes s value with
  | some r => (r, s)
  | none => add_bytes s value freshBase

/-- Model of `DataInternerInner::find_or_add_bytes_with_align`. -/
def find_or_add_bytes_with_align (s : DataInternerInner) (value : List Nat)
    (align : Nat) (freshBase : Nat) : Ref × DataInternerInner :=
  match find_bytes_with_align s value align with
  | some r => (r, s)
  | none => add_bytes_with_align s value align freshBase

end DataInternerInner

/-- Model of `sync::DataInterner::find_bytes`: empty inputs short-circuit to
an empty reference, otherwise the inner pool is searched under the read
lock. -/
def DataInterner.find_bytes (s : DataInternerInner) (value : List Nat) : Option Ref :=
  if value.isEmpty then some emptyRef
  else DataInternerInner.find_bytes s value

/-- Model of `sync::DataInterner::add_bytes`: empty inputs short-circuit,
otherwise the inner add runs under the write lock. -/
def DataInterner.add_bytes (s : DataInternerInner) (value : List Nat) (freshBase : Nat) :
    Ref × DataInternerInner :=
  if value.isEmpty then (emptyRef, s)
  else DataInternerInner.add_bytes s value freshBase

/-- Model of `sync::DataInterner::find_or_add_bytes`: empty inputs
short-circuit, otherwise find-then-add runs inside one write-lock section. -/
def DataInterner.find_or_add_bytes (s : DataInternerInner) (value : List Nat)
    (freshBase : Nat) : Ref × DataInternerInner :=
  if value.isEmpty then (emptyRef, s)
  else DataInternerInner.find_or_add_bytes s value freshBase

/-- Model of `sync::DataInterner::add_owned_bytes`: capacity-0 vectors are
ignored, others are absorbed by the inner pool. -/
def DataInterner.add_owned_bytes (s : DataInternerInner) (v : Buf) :
    Ref × DataInternerInner :=
  if v.cap = 0 then (emptyRef, s)
  else DataInternerInner.add_owned_bytes s v

/-- Model of `sync::DataInterner::clear` (which holds `&mut self` and calls
the inner clear). -/
def DataInterner.clear (s : DataInternerInner) : DataInternerInner :=
  DataInternerInner.clear s


/-! Arithmetic facts about the alignment helpers. -/

theorem and_two_pow_sub_one (n k : Nat) : n &&& (2 ^ k - 1) = n % 2 ^ k := by
  apply Nat.eq_of_testBit_eq
  intro i
  simp [Nat.testBit_and, Nat.testBit_mod_two_pow, Nat.testBit_two_pow_sub_one, Bool.and_comm]

theorem align_offset_two_pow (k ptr : Nat) :
    align_offset (2 ^ k) ptr = (2 ^ k - ptr % 2 ^ k) % 2 ^ k := by
  unfold align_offset
  simp only [and_two_pow_sub_one]

theorem align_offset_lt (k ptr : Nat) : align_offset (2 ^ k) ptr < 2 ^ k := by
  rw [align_offset_two_pow]
  exact Nat.mod_lt _ (Nat.pos_pow_of_pos k (by decide))

theorem align_offset_add_mod (k ptr : Nat) :
    (ptr + align_offset (2 ^ k) ptr) % 2 ^ k = 0 := by
  rw [align_offset_two_pow]
  have hp : 0 < 2 ^ k := by positivity
  have hr : ptr % 2 ^ k < 2 ^ k := Nat.mod_lt _ hp
  rcases Nat.eq_zero_or_pos (ptr % 2 ^ k) with h0 | h0
  · rw [h0, Nat.sub_zero, Nat.mod_self, Nat.add_zero, h0]
  · have hlt : 2 ^ k - ptr % 2 ^ k < 2 ^ k := by omega
    rw [Nat.mod_eq_of_lt hlt, Nat.add_mod, Nat.mod_eq_of_lt hlt]
    have hs : ptr % 2 ^ k + (2 ^ k - ptr % 2 ^ k) = 2 ^ k := by omega
    rw [hs, Nat.mod_self]

theorem tzFuel_le : ∀ (f n : Nat), tzFuel f n ≤ f := by
  intro f
  induction f with
  | zero => intro n; simp [tzFuel]
  | succ f ih =>
    intro n
    simp only [tzFuel]
    split
    · omega
    · exact Nat.succ_le_succ (ih (n / 2))

theorem tzFuel_ge_iff (f : Nat) :
    ∀ n k, n ≠ 0 → k ≤ f → (k ≤ tzFuel f n ↔ 2 ^ k ∣ n) := by
  induction f with
  | zero =>
    intro n k hn hk
    interval_cases k
    simp [tzFuel]
  | succ f ih =>
    intro n k hn hk
    by_cases hmod : n % 2 = 1
    · simp only [tzFuel, if_pos hmod]
      cases k with
      | zero => simp
      | succ k =>
        constructor
        · intro h
          exact absurd h (by omega)
        · intro h
          have h2 : (2 : Nat) ∣ n := dvd_trans ⟨2 ^ k, by ring⟩ h
          obtain ⟨c, rfl⟩ := h2
          omega
    · have hmod0 : n % 2 = 0 := by omega
      have h2 : (2 : Nat) ∣ n := Nat.dvd_of_mod_eq_zero hmod0
      have hhalf : n / 2 ≠ 0 := by omega
      simp only [tzFuel, if_neg hmod]
      cases k with
      | zero => simp
      | succ k =>
        have hform : (2 : Nat) ^ (k + 1) = 2 * 2 ^ k := by ring
        have hiff := ih (n / 2) k hhalf (by omega)
        constructor
        · intro h
          have hk2 : k ≤ tzFuel f (n / 2) := by omega
          have hdvd : 2 ^ k ∣ n / 2 := hiff.mp hk2
          have hmul : 2 * 2 ^ k ∣ n := (Nat.dvd_div_iff_mul_dvd h2).mp hdvd
          rw [hform]
          exact hmul
        · intro h
          rw [hform] at h
          have hdvd : 2 ^ k ∣ n / 2 := (Nat.dvd_div_iff_mul_dvd h2).mpr h
          have := hiff.mpr hdvd
          omega

theorem trailing_zeros_ge_iff (n k : Nat) (hk : k ≤ 64) :
    (k ≤ trailing_zeros n ↔ (n = 0 ∨ 2 ^ k ∣ n)) := by
  unfold trailing_zeros
  rcases eq_or_ne n 0 with h0 | h0
  · subst h0
    simp [hk]
  · rw [if_neg h0, tzFuel_ge_iff 64 n k h0 hk]
    simp [h0]

theorem trailing_zeros_two_pow (k : Nat) (hk : k ≤ 64) : trailing_zeros (2 ^ k) = k := by
  have hpos : (0 : Nat) < 2 ^ k := by positivity
  have hlow : k ≤ trailing_zeros (2 ^ k) := by
    rw [trailing_zeros_ge_iff _ _ hk]
    exact Or.inr dvd_rfl
  have hup : trailing_zeros (2 ^ k) ≤ 64 := by
    unfold trailing_zeros
    rw [if_neg (by omega)]
    exact tzFuel_le 64 _
  rcases Nat.lt_or_ge k 64 with hlt | hge
  · by_contra hne
    have hk1 : k + 1 ≤ trailing_zeros (2 ^ k) := by omega
    rw [trailing_zeros_ge_iff _ _ (by omega)] at hk1
    rcases hk1 with h | h
    · omega
    · have hle := Nat.le_of_dvd hpos h
      have hltp : (2 : Nat) ^ k < 2 ^ (k + 1) := by
        have : (2 : Nat) ^ (k + 1) = 2 * 2 ^ k := by ring
        omega
      omega
  · omega

theorem is_aligned_to_two_pow (k ptr : Nat) (hk : k ≤ 64) :
    (is_aligned_to (2 ^ k) ptr = true ↔ ptr % 2 ^ k = 0) := by
  unfold is_aligned_to
  rw [decide_eq_true_iff, trailing_zeros_two_pow k hk, trailing_zeros_ge_iff ptr k hk]
  constructor
  · rintro (h | h)
    · simp [h]
    · obtain ⟨c, rfl⟩ := h
      simp [Nat.mul_mod_right]
  · intro h
    exact Or.inr (Nat.dvd_of_mod_eq_zero h)

/-! Facts about the substring search and the per-buffer scan. -/

theorem leadsList_take : ∀ (v l : List Nat), leadsList v l = true → l.take v.length = v := by
  intro v
  induction v with
  | nil =>
    intro l _
    simp
  | cons a as ih =>
    intro l h
    cases l with
    | nil => simp [leadsList] at h
    | cons b bs =>
      simp only [leadsList, Bool.and_eq_true, beq_iff_eq] at h
      obtain ⟨rfl, h2⟩ := h
      simp [List.take_succ_cons, ih bs h2]

theorem leadsList_nil_of_ne (v : List Nat) (hv : v ≠ []) : leadsList v [] = false := by
  cases v with
  | nil => exact absurd rfl hv
  | cons a as => rfl

theorem memmemFindAux_spec (v : List Nat) :
    ∀ (l : List Nat) (j i : Nat), memmemFindAux v l j = some i →
      j ≤ i ∧ leadsList v (l.drop (i - j)) = true := by
  intro l
  induction l with
  | nil =>
    intro j i h
    simp only [memmemFindAux] at h
    cases hc : leadsList v [] with
    | true =>
      simp [hc] at h
      subst h
      simpa using hc
    | false => simp [hc] at h
  | cons b bs ih =>
    intro j i h
    simp only [memmemFindAux] at h
    cases hc : leadsList v (b :: bs) with
    | true =>
      simp [hc] at h
      subst h
      simpa [Nat.sub_self] using hc
    | false =>
      simp [hc] at h
      obtain ⟨h1, h2⟩ := ih (j + 1) i h
      refine ⟨by omega, ?_⟩
      have hd : (b :: bs).drop (i - j) = bs.drop (i - (j + 1)) := by
        have hij : i - j = (i - (j + 1)) + 1 := by omega
        rw [hij]
        simp [List.drop_succ_cons]
      rw [hd]
      exact h2

theorem memmemFind_leads {hay v : List Nat} {i : Nat} (h : memmemFind hay v = some i) :
    leadsList v (hay.drop i) = true := by
  have hs := memmemFindAux_spec v hay 0 i (by simpa [memmemFind] using h)
  simpa using hs.2

theorem findSome?_forall {α β : Type} (f : α → Option β) (P : β → Prop)
    (hf : ∀ a r, f a = some r → P r) :
    ∀ (l : List α) (r : β), l.findSome? f = some r → P r := by
  intro l
  induction l with
  | nil =>
    intro r h
    simp [List.findSome?] at h
  | cons a as ih =>
    intro r h
    cases hfa : f a with
    | some b =>
      rw [List.findSome?_cons, hfa] at h
      cases h
      exact hf a _ hfa
    | none =>
      rw [List.findSome?_cons, hfa] at h
      exact ih r h

theorem findInBuf_some {value : List Nat} {align : Nat} {b : Buf} {r : Ref}
    (h : DataInternerInner.findInBuf value align b = some r) :
    is_aligned_to align r.addr = true ∧ r.bytes = value := by
  unfold DataInternerInner.findInBuf at h
  cases hm : memmemFind b.data value with
  | none =>
    rw [hm] at h
    cases h
  | some idx =>
    rw [hm] at h
    dsimp only at h
    by_cases ha : is_aligned_to align (b.base + idx) = true
    · rw [if_pos ha] at h
      cases h
      refine ⟨ha, ?_⟩
      exact leadsList_take value (b.data.drop idx) (memmemFind_leads hm)
    · rw [if_neg ha] at h
      cases h

theorem find_bytes_with_align_some {s : DataInternerInner} {value : List Nat}
    {align : Nat} {r : Ref}
    (h : DataInternerInner.find_bytes_with_align s value align = some r) :
    is_aligned_to align r.addr = true ∧ r.bytes = value := by
  unfold DataInternerInner.find_bytes_with_align at h
  cases hfull : s.full_buffers.findSome? (DataInternerInner.findInBuf value align) with
  | some r2 =>
    rw [hfull] at h
    cases h
    exact findSome?_forall _ _ (fun a r ha => findInBuf_some ha) _ _ hfull
  | none =>
    rw [hfull] at h
    exact findSome?_forall _ _ (fun a r ha => findInBuf_some ha) _ _ h

/-! Facts about the append path of the pool. -/

theorem tryAppend_eq_some {value : List Nat} {align : Nat} {b : Buf} {p : Buf × Nat}
    (h : DataInternerInner.tryAppend value align b = some p) :
    p.1 = ⟨b.base, b.cap,
        b.data ++ List.replicate (align_offset align (b.base + b.data.length)) 10 ++ value⟩ ∧
    p.2 = b.data.length + align_offset align (b.base + b.data.length) := by
  unfold DataInternerInner.tryAppend at h
  dsimp only at h
  split at h
  · cases h
  · split at h
    · cases h
    · split at h
      · cases h
      · cases h
        exact ⟨rfl, rfl⟩

theorem firstAccept_spec {value : List Nat} {align : Nat} :
    ∀ (l : List Buf) (j i : Nat) (b2 : Buf) (st : Nat),
      DataInternerInner.firstAccept value align l j = some (i, b2, st) →
      j ≤ i ∧ i - j < l.length ∧
      ∃ b, l[i - j]? = some b ∧ DataInternerInner.tryAppend value align b = some (b2, st) := by
  intro l
  induction l with
  | nil =>
    intro j i b2 st h
    simp [DataInternerInner.firstAccept] at h
  | cons b bs ih =>
    intro j i b2 st h
    rw [DataInternerInner.firstAccept] at h
    cases hta : DataInternerInner.tryAppend value align b with
    | some p =>
      obtain ⟨pb, pst⟩ := p
      rw [hta] at h
      dsimp only at h
      cases h
      refine ⟨Nat.le_refl _, by simp, b, ?_, hta⟩
      simp [Nat.sub_self]
    | none =>
      rw [hta] at h
      dsimp only at h
      obtain ⟨h1, h2, bb, hb, hbt⟩ := ih (j + 1) i b2 st h
      refine ⟨by omega, by simp; omega, bb, ?_, hbt⟩
      have hij : i - j = (i - (j + 1)) + 1 := by omega
      rw [hij]
      simpa using hb

theorem add_owned_bytes_fst (s : DataInternerInner) (v : Buf) (hc : v.cap ≠ 0) :
    (DataInternerInner.add_owned_bytes s v).1 = ⟨v.base, v.data⟩ := by
  unfold DataInternerInner.add_owned_bytes
  rw [if_neg hc]
  split <;> rfl

theorem add_bytes_with_align_fst_bytes (s : DataInternerInner) (value : List Nat)
    (align : Nat) (freshBase : Nat) :
    (DataInternerInner.add_bytes_with_align s value align freshBase).1.bytes = value := by
  unfold DataInternerInner.add_bytes_with_align
  cases hfa : DataInternerInner.firstAccept value align s.nonfull_buffers 0 with
  | some t =>
    obtain ⟨i, b2, st⟩ := t
    obtain ⟨-, -, bb, hbb, hta⟩ := firstAccept_spec s.nonfull_buffers 0 i b2 st hfa
    obtain ⟨hb2, hst⟩ := tryAppend_eq_some hta
    dsimp only at hb2 hst
    dsimp only
    have hbytes : (b2.data.drop st).take value.length = value := by
      rw [hb2, hst]
      dsimp only
      have hlen : (bb.data ++
          List.replicate (align_offset align (bb.base + bb.data.length)) 10).length
          = bb.data.length + align_offset align (bb.base + bb.data.length) := by
        simp
      rw [List.drop_left' hlen, List.take_length]
    split <;> simpa using hbytes
  | none =>
    dsimp only
    by_cases h1 : align = 1
    · rw [if_pos h1]
      split
      · rw [add_owned_bytes_fst s ⟨freshBase, 1024, value⟩ (show (1024 : Nat) ≠ 0 by decide)]
      · next hge =>
        rw [add_owned_bytes_fst s ⟨freshBase, value.length, value⟩
          (by show value.length ≠ 0; omega)]
    · rw [if_neg h1]
      have hoff : (List.replicate (align_offset align freshBase) 10).length
          = align_offset align freshBase := by simp
      split
      · show ((List.replicate (align_offset align freshBase) 10 ++ value).drop
            (align_offset align freshBase)).take value.length = value
        rw [List.drop_left' hoff, List.take_length]
      · show ((List.replicate (align_offset align freshBase) 10 ++ value).drop
            (align_offset align freshBase)).take value.length = value
        rw [List.drop_left' hoff, List.take_length]

theorem add_bytes_with_align_fst_addr (s : DataInternerInner) (value : List Nat)
    (k : Nat) (freshBase : Nat) :
    (DataInternerInner.add_bytes_with_align s value (2 ^ k) freshBase).1.addr % 2 ^ k = 0 := by
  unfold DataInternerInner.add_bytes_with_align
  cases hfa : DataInternerInner.firstAccept value (2 ^ k) s.nonfull_buffers 0 with
  | some t =>
    obtain ⟨i, b2, st⟩ := t
    obtain ⟨-, -, bb, hbb, hta⟩ := firstAccept_spec s.nonfull_buffers 0 i b2 st hfa
    obtain ⟨hb2, hst⟩ := tryAppend_eq_some hta
    dsimp only at hb2 hst
    dsimp only
    have haddr : (b2.base + st) % 2 ^ k = 0 := by
      rw [hb2, hst]
      dsimp only
      rw [← Nat.add_assoc]
      exact align_offset_add_mod k (bb.base + bb.data.length)
    split <;> simpa using haddr
  | none =>
    dsimp only
    by_cases h1 : (2 : Nat) ^ k = 1
    · rw [if_pos h1, h1]
      simp [Nat.mod_one]
    · rw [if_neg h1]
      split
      · exact align_offset_add_mod k freshBase
      · exact align_offset_add_mod k freshBase

theorem find_or_add_bytes_with_align_fst_bytes (s : DataInternerInner) (value : List Nat)
    (align : Nat) (freshBase : Nat) :
    (DataInternerInner.find_or_add_bytes_with_align s value align freshBase).1.bytes = value := by
  unfold DataInternerInner.find_or_add_bytes_with_align
  cases h : DataInternerInner.find_bytes_with_align s value align with
  | some r => exact (find_bytes_with_align_some h).2
  | none => exact add_bytes_with_align_fst_bytes s value align freshBase

theorem find_or_add_bytes_fst_bytes (s : DataInternerInner) (value : List Nat)
    (freshBase : Nat) :
    (DataInternerInner.find_or_add_bytes s value freshBase).1.bytes = value := by
  unfold DataInternerInner.find_or_add_bytes
  cases h : DataInternerInner.find_bytes s value with
  | some r =>
    exact (find_bytes_with_align_some (by simpa [DataInternerInner.find_bytes] using h)).2
  | none => exact add_bytes_with_align_fst_bytes s value 1 freshBase

theorem DataInterner_find_or_add_bytes_fst_bytes (s : DataInternerInner)
    (value : List Nat) (freshBase : Nat) :
    (DataInterner.find_or_add_bytes s value freshBase).1.bytes = value := by
  unfold DataInterner.find_or_add_bytes
  by_cases he : value.isEmpty
  · rw [if_pos he]
    have : value = [] := List.isEmpty_iff.mp he
    simp [this, emptyRef]
  · rw [if_neg he]
    exact find_or_add_bytes_fst_bytes s value freshBase

/-! Byte strings used by the demonstration scenario in `src/bin/main.rs`. -/

/-- ASCII bytes of the string Hello, world! (13 bytes). -/
def helloBytes : List Nat :=
  [72, 101, 108, 108, 111, 44, 32, 119, 111, 114, 108, 100, 33]

/-- ASCII bytes of the string Lorem ipsum sit dolor amet. (27 bytes). -/
def loremBytes : List Nat :=
  [76, 111, 114, 101, 109, 32, 105, 112, 115, 117, 109, 32, 115, 105, 116, 32,
   100, 111, 108, 111, 114, 32, 97, 109, 101, 116, 46]

/-- ASCII bytes of the string Hello, world!Lorem (18 bytes). -/
def helloLoremBytes : List Nat := helloBytes ++ [76, 111, 114, 101, 109]

/-- C1: two consecutive public `find_or_add_bytes(v)` calls (no intervening
operations) both return references whose bytes equal `v`, hence byte-equal to
each other, for every prior pool state and any allocator placements.
(Address-identity does not hold in general; see the counterexample.) -/
theorem c1_two_find_or_add_byte_equal (s : DataInternerInner) (v : List Nat) (f1 f2 : Nat) :
    (DataInterner.find_or_add_bytes s v f1).1.bytes = v ∧
    (DataInterner.find_or_add_bytes
      (DataInterner.find_or_add_bytes s v f1).2 v f2).1.bytes = v :=
  ⟨DataInterner_find_or_add_bytes_fst_bytes s v f1,
   DataInterner_find_or_add_bytes_fst_bytes _ v f2⟩

/-- C1 counterexample: after interning [0, 1], two consecutive
`find_or_add_bytes([1, 1])` calls return byte-equal references at DIFFERENT
addresses: the add writes [1, 1] at offset 2 of the buffer, but the write
creates an earlier overlapping occurrence at offset 1, which the second
call's find returns.  This refutes the address-identity part of the claim. -/
theorem c1_counterexample :
    ((DataInterner.find_or_add_bytes
        (DataInterner.find_or_add_bytes DataInternerInner.new [0, 1] 0).2 [1, 1] 0).1.bytes =
      (DataInterner.find_or_add_bytes
        (DataInterner.find_or_add_bytes
          (DataInterner.find_or_add_bytes DataInternerInner.new [0, 1] 0).2 [1, 1] 0).2
        [1, 1] 0).1.bytes) ∧
    ((DataInterner.find_or_add_bytes
        (DataInterner.find_or_add_bytes DataInternerInner.new [0, 1] 0).2 [1, 1] 0).1.addr ≠
      (DataInterner.find_or_add_bytes
        (DataInterner.find_or_add_bytes
          (DataInterner.find_or_add_bytes DataInternerInner.new [0, 1] 0).2 [1, 1] 0).2
        [1, 1] 0).1.addr) := by
  decide

/-- C2: the demonstration scenario.  From an empty pool, `add_bytes` of
Hello, world! returns those bytes; `add_bytes` of Lorem ipsum sit dolor amet.
returns those bytes (appended into the same 1024-byte buffer); `find_bytes`
of Hello, world! returns Some at the first add's address; and `find_bytes` of
Hello, world!Lorem returns SOME at the first add's address as well (the two
adds are contiguous in one buffer), not None as the claim stated. -/
theorem c2_scenario :
    (DataInterner.add_bytes DataInternerInner.new helloBytes 0).1.bytes = helloBytes ∧
    (DataInterner.add_bytes
      (DataInterner.add_bytes DataInternerInner.new helloBytes 0).2
      loremBytes 0).1.bytes = loremBytes ∧
    DataInterner.find_bytes
      (DataInterner.add_bytes
        (DataInterner.add_bytes DataInternerInner.new helloBytes 0).2
        loremBytes 0).2 helloBytes =
      some ⟨(DataInterner.add_bytes DataInternerInner.new helloBytes 0).1.addr,
            helloBytes⟩ ∧
    DataInterner.find_bytes
      (DataInterner.add_bytes
        (DataInterner.add_bytes DataInternerInner.new helloBytes 0).2
        loremBytes 0).2 helloLoremBytes =
      some ⟨(DataInterner.add_bytes DataInternerInner.new helloBytes 0).1.addr,
            helloLoremBytes⟩ := by
  decide

/-- C2 counterexample: in the scenario, `find_bytes` of Hello, world!Lorem
returns Some (the demo binary unwraps it), refuting the None clause of the
claim. -/
theorem c2_counterexample :
    DataInterner.find_bytes
      (DataInterner.add_bytes
        (DataInterner.add_bytes DataInternerInner.new helloBytes 0).2
        loremBytes 0).2 helloLoremBytes ≠ none := by
  decide

/-- C5: `add_owned_bytes(buffer)` splits into three exhaustive cases on the
input vector: capacity 0 is ignored (empty reference, pool untouched);
length = capacity moves the buffer to the Full collection with the returned
reference at the buffer's original backing address; otherwise the buffer
moves to the Spare collection as-is (capacity and bytes retained). -/
theorem c5_add_owned_cases (s : DataInternerInner) (v : Buf) :
    (v.cap = 0 → DataInterner.add_owned_bytes s v = (emptyRef, s)) ∧
    (v.cap ≠ 0 → v.data.length = v.cap →
      DataInterner.add_owned_bytes s v =
        (⟨v.base, v.data⟩, ⟨s.full_buffers ++ [v], s.nonfull_buffers⟩)) ∧
    (v.cap ≠ 0 → v.data.length ≠ v.cap →
      DataInterner.add_owned_bytes s v =
        (⟨v.base, v.data⟩, ⟨s.full_buffers, s.nonfull_buffers ++ [v]⟩)) := by
  refine ⟨?_, ?_, ?_⟩
  · intro h0
    unfold DataInterner.add_owned_bytes
    rw [if_pos h0]
  · intro h0 hfull
    unfold DataInterner.add_owned_bytes DataInternerInner.add_owned_bytes
    rw [if_neg h0, if_neg h0, if_pos hfull]
  · intro h0 hnot
    unfold DataInterner.add_owned_bytes DataInternerInner.add_owned_bytes
    rw [if_neg h0, if_neg h0, if_neg hnot]

/-- C5 witness: the three cases evaluated at concrete inputs: a capacity-0
vector, an exactly-full vector (address preserved), and a slack vector. -/
theorem c5_add_owned_cases_witness :
    (DataInterner.add_owned_bytes ⟨[], []⟩ ⟨7, 0, []⟩ = (emptyRef, ⟨[], []⟩)) ∧
    (DataInterner.add_owned_bytes ⟨[], []⟩ ⟨7, 2, [5, 6]⟩ =
      (⟨7, [5, 6]⟩, ⟨[⟨7, 2, [5, 6]⟩], []⟩)) ∧
    (DataInterner.add_owned_bytes ⟨[], []⟩ ⟨7, 4, [5, 6]⟩ =
      (⟨7, [5, 6]⟩, ⟨[], [⟨7, 4, [5, 6]⟩]⟩)) :=
  ⟨(c5_add_owned_cases ⟨[], []⟩ ⟨7, 0, []⟩).1 (by decide),
   (c5_add_owned_cases ⟨[], []⟩ ⟨7, 2, [5, 6]⟩).2.1 (by decide) (by decide),
   (c5_add_owned_cases ⟨[], []⟩ ⟨7, 4, [5, 6]⟩).2.2 (by decide) (by decide)⟩

/-- C6: `clear()` empties the Full collection, moving every buffer (cleared
to length 0 but with base address and capacity retained) to the Spare
collection behind the cleared Spare buffers; afterwards `find_bytes` of any
non-empty byte sequence returns none. -/
theorem c6_clear (s : DataInternerInner) (v : List Nat) (hv : v ≠ []) :
    DataInterner.find_bytes (DataInterner.clear s) v = none ∧
    (DataInterner.clear s).full_buffers = [] ∧
    (DataInterner.clear s).nonfull_buffers =
      s.nonfull_buffers.map DataInternerInner.clearBuf ++
        s.full_buffers.map DataInternerInner.clearBuf := by
  refine ⟨?_, rfl, rfl⟩
  have hbuf : ∀ b : Buf, DataInternerInner.findInBuf v 1 (DataInternerInner.clearBuf b)
      = none := by
    intro b
    unfold DataInternerInner.findInBuf DataInternerInner.clearBuf
    have hm : memmemFind [] v = none := by
      unfold memmemFind memmemFindAux
      simp [leadsList_nil_of_ne v hv]
    dsimp only
    rw [hm]
  have hnone : (s.nonfull_buffers.map DataInternerInner.clearBuf ++
      s.full_buffers.map DataInternerInner.clearBuf).findSome?
        (DataInternerInner.findInBuf v 1) = none := by
    rw [List.findSome?_eq_none_iff]
    intro a ha
    rcases List.mem_append.mp ha with h | h
    · obtain ⟨b, -, rfl⟩ := List.mem_map.mp h
      exact hbuf b
    · obtain ⟨b, -, rfl⟩ := List.mem_map.mp h
      exact hbuf b
  unfold DataInterner.find_bytes
  rw [if_neg (by simpa [List.isEmpty_iff] using hv)]
  unfold DataInternerInner.find_bytes DataInternerInner.find_bytes_with_align
    DataInterner.clear DataInternerInner.clear
  dsimp only
  simp only [List.findSome?_nil]
  exact hnone

/-- C6 witness: a pool with one full and one spare buffer, cleared, then
searched for a previously present byte. -/
theorem c6_clear_witness :
    DataInterner.find_bytes (DataInterner.clear ⟨[⟨0, 2, [5, 6]⟩], [⟨10, 4, [7]⟩]⟩) [5]
      = none ∧
    (DataInterner.clear ⟨[⟨0, 2, [5, 6]⟩], [⟨10, 4, [7]⟩]⟩).full_buffers = [] ∧
    (DataInterner.clear ⟨[⟨0, 2, [5, 6]⟩], [⟨10, 4, [7]⟩]⟩).nonfull_buffers =
      [⟨10, 4, [7]⟩].map DataInternerInner.clearBuf ++
        [⟨0, 2, [5, 6]⟩].map DataInternerInner.clearBuf :=
  c6_clear ⟨[⟨0, 2, [5, 6]⟩], [⟨10, 4, [7]⟩]⟩ [5] (by decide)

/-- C3: for every alignment in {1, 2, 4, 8, 16} and non-empty value, the
references returned by add, find, and find-or-add at that alignment start at
an address divisible by the alignment; the add path achieves this by writing
`align_offset` filler bytes, and `align_offset` is exactly the byte count
needed to reach the next multiple of the alignment. -/
theorem c3_alignment (align : Nat)
    (halign : align = 1 ∨ align = 2 ∨ align = 4 ∨ align = 8 ∨ align = 16)
    (s : DataInternerInner) (value : List Nat) (freshBase : Nat) (_hv : value ≠ []) :
    ((DataInternerInner.add_bytes_with_align s value align freshBase).1.addr % align = 0) ∧
    (∀ r, DataInternerInner.find_bytes_with_align s value align = some r →
      r.addr % align = 0) ∧
    ((DataInternerInner.find_or_add_bytes_with_align s value align freshBase).1.addr % align
      = 0) ∧
    (∀ ptr, (ptr + align_offset align ptr) % align = 0 ∧ align_offset align ptr < align) ∧
    (∀ b p, DataInternerInner.tryAppend value align b = some p →
      p.1.data = b.data ++
        List.replicate (align_offset align (b.base + b.data.length)) 10 ++ value ∧
      p.2 = b.data.length + align_offset align (b.base + b.data.length)) := by
  obtain ⟨k, hk, hkle⟩ : ∃ k, align = 2 ^ k ∧ k ≤ 64 := by
    rcases halign with h | h | h | h | h
    · exact ⟨0, by norm_num [h], by norm_num⟩
    · exact ⟨1, by norm_num [h], by norm_num⟩
    · exact ⟨2, by norm_num [h], by norm_num⟩
    · exact ⟨3, by norm_num [h], by norm_num⟩
    · exact ⟨4, by norm_num [h], by norm_num⟩
  subst hk
  refine ⟨add_bytes_with_align_fst_addr s value k freshBase, ?_, ?_, ?_, ?_⟩
  · intro r hr
    exact (is_aligned_to_two_pow k r.addr hkle).mp (find_bytes_with_align_some hr).1
  · unfold DataInternerInner.find_or_add_bytes_with_align
    cases hf : DataInternerInner.find_bytes_with_align s value (2 ^ k) with
    | some r =>
      simpa using (is_aligned_to_two_pow k r.addr hkle).mp (find_bytes_with_align_some hf).1
    | none => exact add_bytes_with_align_fst_addr s value k freshBase
  · intro ptr
    exact ⟨align_offset_add_mod k ptr, align_offset_lt k ptr⟩
  · intro b p hp
    have h := tryAppend_eq_some hp
    exact ⟨by rw [h.1], h.2⟩

/-- C3 witness: the alignment guarantees instantiated at alignment 2 on the
empty pool with value [7]. -/
theorem c3_alignment_witness :
    ((DataInternerInner.add_bytes_with_align ⟨[], []⟩ [7] 2 0).1.addr % 2 = 0) ∧
    (∀ r, DataInternerInner.find_bytes_with_align ⟨[], []⟩ [7] 2 = some r →
      r.addr % 2 = 0) ∧
    ((DataInternerInner.find_or_add_bytes_with_align ⟨[], []⟩ [7] 2 0).1.addr % 2 = 0) ∧
    (∀ ptr, (ptr + align_offset 2 ptr) % 2 = 0 ∧ align_offset 2 ptr < 2) ∧
    (∀ b p, DataInternerInner.tryAppend [7] 2 b = some p →
      p.1.data = b.data ++
        List.replicate (align_offset 2 (b.base + b.data.length)) 10 ++ [7] ∧
      p.2 = b.data.length + align_offset 2 (b.base + b.data.length)) :=
  c3_alignment 2 (Or.inr (Or.inl rfl)) ⟨[], []⟩ [7] 0 (by decide)

/-- C8 counterexample: a single spare buffer with bytes [1, 2, 2] searched
for [2] at alignment 2.  The leftmost occurrence (index 1, address 1) fails
the alignment check and the search returns none, even though a later aligned
occurrence exists at index 2 (address 2).  This refutes the claim that the
search continues within the same buffer. -/
theorem c8_counterexample :
    DataInternerInner.find_bytes_with_align ⟨[], [⟨0, 4, [1, 2, 2]⟩]⟩ [2] 2 = none ∧
    memmemFind ((⟨0, 4, [1, 2, 2]⟩ : Buf).data.drop 2) [2] = some 0 ∧
    is_aligned_to 2 ((⟨0, 4, [1, 2, 2]⟩ : Buf).base + 2) = true := by
  decide

/-- C8 (amended): when the leftmost occurrence of the value in a buffer
fails the alignment check, that buffer is skipped entirely — the search moves
to the remaining buffers without considering later occurrences in the same
buffer; this holds for a buffer at the head of the full list and for one at
the head of the non-full list. -/
theorem c8_skip_buffer (b : Buf) (fullRest nonfull : List Buf) (value : List Nat)
    (align idx : Nat) (hidx : memmemFind b.data value = some idx)
    (hmis : is_aligned_to align (b.base + idx) = false) :
    DataInternerInner.find_bytes_with_align ⟨b :: fullRest, nonfull⟩ value align =
      DataInternerInner.find_bytes_with_align ⟨fullRest, nonfull⟩ value align ∧
    DataInternerInner.find_bytes_with_align ⟨[], b :: nonfull⟩ value align =
      DataInternerInner.find_bytes_with_align ⟨[], nonfull⟩ value align := by
  have hnone : DataInternerInner.findInBuf value align b = none := by
    unfold DataInternerInner.findInBuf
    rw [hidx]
    dsimp only
    rw [if_neg (by simp [hmis])]
  constructor
  · unfold DataInternerInner.find_bytes_with_align
    dsimp only
    rw [List.findSome?_cons, hnone]
  · unfold DataInternerInner.find_bytes_with_align
    dsimp only
    rw [List.findSome?_cons, hnone]

/-- C8 witness: the skip behaviour applied to the concrete buffer from the
counterexample. -/
theorem c8_skip_buffer_witness :
    (DataInternerInner.find_bytes_with_align ⟨[⟨0, 4, [1, 2, 2]⟩], []⟩ [2] 2 =
      DataInternerInner.find_bytes_with_align ⟨[], []⟩ [2] 2) ∧
    (DataInternerInner.find_bytes_with_align ⟨[], [⟨0, 4, [1, 2, 2]⟩]⟩ [2] 2 =
      DataInternerInner.find_bytes_with_align ⟨[], []⟩ [2] 2) :=
  c8_skip_buffer ⟨0, 4, [1, 2, 2]⟩ [] [] [2] 2 1 (by decide) (by decide)

theorem getLast?_set_of_lt {α : Type} (l : List α) (i : Nat) (a : α)
    (h : i + 1 < l.length) : (l.set i a).getLast? = l.getLast? := by
  rw [List.getLast?_eq_getElem?, List.getLast?_eq_getElem?]
  simp only [List.length_set]
  rw [List.getElem?_set_ne]
  omega

/-- C10: when an append lands in the spare buffer at index `i` and makes it
exactly full, the pool removes that buffer by swap-removal (the updated
buffer list has the formerly-last spare buffer at index `i`, so scan order is
permuted) and appends the newly full buffer at the end of the Full
collection; the spare count drops by one. -/
theorem c10_swap_remove (s : DataInternerInner) (value : List Nat)
    (align freshBase i : Nat) (b2 : Buf) (st : Nat)
    (hfa : DataInternerInner.firstAccept value align s.nonfull_buffers 0 = some (i, b2, st))
    (hfull : b2.data.length = b2.cap) :
    (DataInternerInner.add_bytes_with_align s value align freshBase).2 =
      ⟨s.full_buffers ++ [b2],
        DataInternerInner.swapRemove (s.nonfull_buffers.set i b2) i⟩ ∧
    (i + 1 < s.nonfull_buffers.length →
      (DataInternerInner.swapRemove (s.nonfull_buffers.set i b2) i)[i]? =
        s.nonfull_buffers.getLast?) ∧
    (DataInternerInner.swapRemove (s.nonfull_buffers.set i b2) i).length + 1 =
      s.nonfull_buffers.length := by
  obtain ⟨-, hlen, -⟩ := firstAccept_spec s.nonfull_buffers 0 i b2 st hfa
  rw [Nat.sub_zero] at hlen
  have hpos : 0 < s.nonfull_buffers.length := by omega
  have hsetlen : (s.nonfull_buffers.set i b2).length = s.nonfull_buffers.length :=
    List.length_set ..
  obtain ⟨x, hx⟩ : ∃ x, (s.nonfull_buffers.set i b2).getLast? = some x := by
    cases hg : (s.nonfull_buffers.set i b2).getLast? with
    | none =>
      have := List.getLast?_eq_none_iff.mp hg
      have : (s.nonfull_buffers.set i b2).length = 0 := by rw [this]; rfl
      omega
    | some x => exact ⟨x, rfl⟩
  refine ⟨?_, ?_, ?_⟩
  · unfold DataInternerInner.add_bytes_with_align
    rw [hfa]
    dsimp only
    rw [if_pos hfull]
  · intro hlt
    have hlast : (s.nonfull_buffers.set i b2).getLast? = s.nonfull_buffers.getLast? :=
      getLast?_set_of_lt s.nonfull_buffers i b2 hlt
    unfold DataInternerInner.swapRemove
    rw [hx, List.getElem?_dropLast]
    simp only [List.length_set]
    rw [if_pos (by omega), List.getElem?_set_self (by omega)]
    rw [← hlast, hx]
  · unfold DataInternerInner.swapRemove
    rw [hx]
    rw [List.length_dropLast]
    simp only [List.length_set]
    omega

/-- C10 witness: a two-buffer spare list where the append exactly fills the
first buffer; after the operation the formerly-last spare buffer sits at
index 0 and the full list gained the filled buffer. -/
theorem c10_swap_remove_witness :
    ((DataInternerInner.add_bytes_with_align ⟨[], [⟨0, 2, [5]⟩, ⟨100, 10, []⟩]⟩ [7] 1 0).2 =
      ⟨[] ++ [⟨0, 2, [5, 7]⟩],
        DataInternerInner.swapRemove
          (([⟨0, 2, [5]⟩, ⟨100, 10, []⟩] : List Buf).set 0 ⟨0, 2, [5, 7]⟩) 0⟩) ∧
    (0 + 1 < ([⟨0, 2, [5]⟩, ⟨100, 10, []⟩] : List Buf).length →
      (DataInternerInner.swapRemove
          (([⟨0, 2, [5]⟩, ⟨100, 10, []⟩] : List Buf).set 0 ⟨0, 2, [5, 7]⟩) 0)[0]? =
        ([⟨0, 2, [5]⟩, ⟨100, 10, []⟩] : List Buf).getLast?) ∧
    ((DataInternerInner.swapRemove
        (([⟨0, 2, [5]⟩, ⟨100, 10, []⟩] : List Buf).set 0 ⟨0, 2, [5, 7]⟩) 0).length + 1 =
      ([⟨0, 2, [5]⟩, ⟨100, 10, []⟩] : List Buf).length) :=
  c10_swap_remove ⟨[], [⟨0, 2, [5]⟩, ⟨100, 10, []⟩]⟩ [7] 1 0 0 ⟨0, 2, [5, 7]⟩ 1
    (by decide) (by decide)

/-! Model of the typed slice builder (`src/builder.rs`).  The element type is
represented by its size `es` and alignment `ea` in bytes; elements are their
byte encodings (lists of length `es`).  The scratch vector is modelled like a
pool buffer: logical bytes plus a base address and a raw capacity, where the
base address changes when growth reallocates. -/

/-- Model of `Vec::reserve` on a byte vector, from its documented contract
(capacity becomes at least `len + additional`) with the standard amortized
doubling growth; returns the new base address (the fresh one exactly when the
vector grew, since growth may relocate the allocation) and the new raw
capacity. -/
def vecReserve (dataLen dataCap additional base fresh : Nat) : Nat × Nat :=
  if additional ≤ dataCap - dataLen then (base, dataCap)
  else (fresh, Nat.max (2 * dataCap) (dataLen + additional))

/-- Model of `builder::SliceBuilder`: raw scratch bytes, the allocation's
base address and raw byte capacity, the alignment-padding offset `start`, the
element length and the element capacity. -/
structure SliceBuilder where
  data : List Nat
  dataBase : Nat
  dataCap : Nat
  start : Nat
  len : Nat
  cap : Nat
deriving DecidableEq

namespace SliceBuilder

/-- Model of `SliceBuilder::new`: zero-sized elements get capacity
`usize::MAX`, everything else starts at capacity 0 with no allocation. -/
def new (es : Nat) : SliceBuilder :=
  ⟨[], 0, 0, 0, 0, if es = 0 then USIZE_MAX else 0⟩

/-- Model of `SliceBuilder::reserve`.  `none` models a panic: the
`checked_add` overflow, the `checked_mul` overflow, or the zero-size-type
`capacity overflow` panic.  The three growth paths mirror the source:
alignment 1 (no padding bookkeeping), first real allocation (allocate
`align - 1` extra bytes and align within), and subsequent growth (recompute
the padding offset against the possibly relocated base and shift the element
bytes if it changed). -/
def reserve (es ea : Nat) (b : SliceBuilder) (additional fresh : Nat) :
    Option SliceBuilder :=
  if b.len + additional > USIZE_MAX then none
  else if b.len + additional ≤ b.cap then some b
  else
    let additionalCap := b.len + additional - b.cap
    if additionalCap * es > USIZE_MAX then none
    else if es = 0 then none
    else
      let additionalRaw := additionalCap * es
      if ea = 1 then
        let nbc := vecReserve b.data.length b.dataCap additionalRaw b.dataBase fresh
        some ⟨b.data, nbc.1, nbc.2, b.start, b.len, nbc.2 / es⟩
      else if b.dataCap = 0 then
        let nbc := vecReserve b.data.length b.dataCap (additionalRaw + ea - 1)
          b.dataBase fresh
        let off := align_offset ea nbc.1
        some ⟨List.replicate off 0, nbc.1, nbc.2, off, b.len, (nbc.2 - off) / es⟩
      else
        let nbc := vecReserve b.data.length b.dataCap additionalRaw b.dataBase fresh
        let noff := align_offset ea nbc.1
        if b.start = noff then
          some ⟨b.data, nbc.1, nbc.2, b.start, b.len, (nbc.2 - noff) / es⟩
        else
          some ⟨List.replicate noff 0 ++ (b.data.drop b.start).take (b.len * es),
                nbc.1, nbc.2, noff, b.len, (nbc.2 - noff) / es⟩

/-- Model of `SliceBuilder::push`: reserve one more slot when at capacity,
then write the element's bytes at byte offset `start + len * es` and bump the
length. -/
def push (es ea : Nat) (b : SliceBuilder) (v : List Nat) (fresh : Nat) :
    Option SliceBuilder :=
  if b.len = b.cap then
    match reserve es ea b 1 fresh with
    | none => none
    | some b1 =>
      some ⟨b1.data.take (b1.start + b1.len * es) ++ v, b1.dataBase, b1.dataCap,
            b1.start, b1.len + 1, b1.cap⟩
  else
    some ⟨b.data.take (b.start + b.len * es) ++ v, b.dataBase, b.dataCap,
          b.start, b.len + 1, b.cap⟩

end SliceBuilder

/-- Splits `n * es` bytes into `n` consecutive chunks of `es` bytes,
modelling `slice::from_raw_parts(ptr, n)` over elements of size `es`. -/
def chunksOfN (es : Nat) : Nat → List Nat → List (List Nat)
  | 0, _ => []
  | n + 1, l => l.take es :: chunksOfN es n (l.drop es)

/-- Model of `SliceBuilder::finalize`: zero-sized elements never touch the
pool; a never-grown builder returns the empty slice; otherwise the whole
scratch vector is absorbed into the pool via the public `add_owned_bytes` and
the returned bytes are sliced from `start` and reinterpreted as `len`
elements. -/
def SliceBuilder.finalize (es : Nat) (b : SliceBuilder) (s : DataInternerInner) :
    List (List Nat) × DataInternerInner :=
  if es = 0 then (List.replicate b.len [], s)
  else if b.cap = 0 then ([], s)
  else
    let rs := DataInterner.add_owned_bytes s ⟨b.dataBase, b.dataCap, b.data⟩
    (chunksOfN es b.len (rs.1.bytes.drop b.start), rs.2)

/-- Pushes a list of elements in order; the allocator placements for the
reallocations are drawn from `f` at successive indices. -/
def SliceBuilder.pushMany (es ea : Nat) (f : Nat → Nat) :
    List (List Nat) → Nat → SliceBuilder → Option SliceBuilder
  | [], _, b => some b
  | v :: vs, k, b =>
    match SliceBuilder.push es ea b v (f k) with
    | none => none
    | some b1 => SliceBuilder.pushMany es ea f vs (k + 1) b1

/-- C7: for a builder over a zero-sized element type the capacity is
`usize::MAX` from construction, and `reserve(additional)` panics exactly when
`len + additional` overflows `usize`; otherwise it returns with the builder
unchanged (the claim said every reserve call panics, which is refuted by the
counterexample). -/
theorem c7_zst_reserve (ea : Nat) (b : SliceBuilder) (additional fresh : Nat)
    (hcap : b.cap = USIZE_MAX) :
    (SliceBuilder.new 0).cap = USIZE_MAX ∧
    SliceBuilder.reserve 0 ea b additional fresh =
      (if b.len + additional > USIZE_MAX then none else some b) := by
  refine ⟨rfl, ?_⟩
  unfold SliceBuilder.reserve
  by_cases h : b.len + additional > USIZE_MAX
  · rw [if_pos h, if_pos h]
  · rw [if_neg h, if_neg h, if_pos (by omega)]

/-- C7 witness: the zero-size reserve behaviour at `additional = 1` on a
fresh builder. -/
theorem c7_zst_reserve_witness :
    (SliceBuilder.new 0).cap = USIZE_MAX ∧
    SliceBuilder.reserve 0 1 (SliceBuilder.new 0) 1 0 =
      (if (SliceBuilder.new 0).len + 1 > USIZE_MAX then none
       else some (SliceBuilder.new 0)) :=
  c7_zst_reserve 1 (SliceBuilder.new 0) 1 0 rfl

/-- C7 counterexample: `reserve(1)` on a fresh zero-size builder returns
successfully (no panic), refuting the claim that every reserve call on a
zero-sized element type is an overflow error. -/
theorem c7_counterexample :
    SliceBuilder.reserve 0 1 (SliceBuilder.new 0) 1 0 = some (SliceBuilder.new 0) := by
  decide

/-! Model of the typed owned-vector absorption path (`sync.rs`,
`try_add_owned`, under the `bytemuck` feature). -/

/-- A typed owned vector `Vec<T>`: base address of its allocation, capacity
in elements, and the byte encodings of its elements. -/
structure TVec where
  base : Nat
  capElems : Nat
  elems : List (List Nat)
deriving DecidableEq

/-- Model of `bytemuck::try_cast_vec::<T, u8>`: succeeds exactly when the
element alignment equals 1 (the alignment of `u8`); on success the vector is
reinterpreted in place, so the base address is kept and length and capacity
scale by the element size. -/
def try_cast_vec_to_bytes (es ea : Nat) (v : TVec) : Option Buf :=
  if ea = 1 then some ⟨v.base, v.capElems * es, v.elems.flatten⟩ else none

/-- Model of `sync::DataInterner::try_add_owned`: capacity-0 vectors and
zero-sized element types short-circuit to an Ok result without touching the
pool; otherwise the vector is cast to bytes (failing with `Err` carrying the
original vector when the element alignment is not 1) and absorbed through
`add_owned_bytes`.  `Sum.inl` is the `Err` carrying the vector; `Sum.inr` is
the `Ok` reference (address and typed elements). -/
def DataInterner.try_add_owned (es ea : Nat) (s : DataInternerInner) (v : TVec) :
    (TVec ⊕ (Nat × List (List Nat))) × DataInternerInner :=
  if v.capElems = 0 then (Sum.inr (ea, []), s)
  else if es = 0 then (Sum.inr (ea, List.replicate v.elems.length []), s)
  else
    match try_cast_vec_to_bytes es ea v with
    | none => (Sum.inl v, s)
    | some buf =>
      let rs := DataInterner.add_owned_bytes s buf
      (Sum.inr (rs.1.addr, chunksOfN es v.elems.length rs.1.bytes), rs.2)

/-- C9: for a non-zero-sized element type with alignment different from 1
and a vector of non-zero capacity, `try_add_owned` returns `Err` carrying the
original vector (contents, length and capacity unmodified) and leaves the
pool state unchanged. -/
theorem c9_try_add_owned_err (es ea : Nat) (s : DataInternerInner) (v : TVec)
    (hes : es ≠ 0) (hea : ea ≠ 1) (hcap : v.capElems ≠ 0) :
    DataInterner.try_add_owned es ea s v = (Sum.inl v, s) := by
  unfold DataInterner.try_add_owned
  rw [if_neg hcap, if_neg hes]
  unfold try_cast_vec_to_bytes
  rw [if_neg hea]

/-- C9 witness: a two-byte element of alignment 2 (for example `u16`), a
vector of one element and capacity 3, on a pool with one buffer. -/
theorem c9_try_add_owned_err_witness :
    DataInterner.try_add_owned 2 2 ⟨[], [⟨0, 4, [9]⟩]⟩ ⟨64, 3, [[1, 2]]⟩ =
      (Sum.inl ⟨64, 3, [[1, 2]]⟩, ⟨[], [⟨0, 4, [9]⟩]⟩) :=
  c9_try_add_owned_err 2 2 ⟨[], [⟨0, 4, [9]⟩]⟩ ⟨64, 3, [[1, 2]]⟩
    (by decide) (by decide) (by decide)

/-! Invariant of the slice builder maintained by the push loop. -/

/-- Invariant tying a builder state to the sequence of elements pushed so
far: the scratch bytes are exactly the zeroed alignment padding followed by
the element bytes in push order; the element length matches; and the
capacity/allocation bookkeeping is consistent (for sized elements a non-empty
builder has a live allocation, an unallocated builder is empty, and for
zero-sized elements the capacity is pinned at `usize::MAX` with no
allocation). -/
def BuilderInv (es : Nat) (elems : List (List Nat)) (b : SliceBuilder) : Prop :=
  b.data = List.replicate b.start 0 ++ elems.flatten ∧
  b.len = elems.length ∧
  (es ≠ 0 → 0 < b.len → b.cap ≠ 0 ∧ b.dataCap ≠ 0) ∧
  (es ≠ 0 → b.dataCap = 0 → b.cap = 0 ∧ b.start = 0) ∧
  (es ≠ 0 → b.len = 0 → b.cap = 0 ∧ b.dataCap = 0 ∧ b.start = 0) ∧
  (es = 0 → b.cap = USIZE_MAX ∧ b.start = 0 ∧ b.dataCap = 0)

theorem builderInv_new (es : Nat) : BuilderInv es [] (SliceBuilder.new es) := by
  unfold BuilderInv SliceBuilder.new
  by_cases hes : es = 0 <;> simp [hes]

theorem flatten_length_of_sizes (es : Nat) :
    ∀ (elems : List (List Nat)), (∀ v ∈ elems, v.length = es) →
      elems.flatten.length = elems.length * es := by
  intro elems
  induction elems with
  | nil => simp
  | cons v vs ih =>
    intro h
    simp only [List.flatten_cons, List.length_append, List.length_cons]
    rw [ih (fun x hx => h x (by simp [hx])), h v (by simp)]
    ring

theorem align_offset_le_mask (align ptr : Nat) : align_offset align ptr ≤ align - 1 := by
  unfold align_offset
  exact Nat.and_le_right

theorem reserve_one_spec (es ea : Nat) (hes : es ≠ 0) (hea : 0 < ea)
    (heas : ea ≤ es) (hesm : es ≤ USIZE_MAX)
    (b : SliceBuilder) (fresh : Nat) (F : List Nat)
    (hdata : b.data = List.replicate b.start 0 ++ F)
    (hF : F.length = b.len * es)
    (hlencap : b.len = b.cap)
    (hmax : b.len + 1 ≤ USIZE_MAX)
    (hcap0 : b.dataCap = 0 → b.cap = 0 ∧ b.start = 0)
    (hlen0 : b.len = 0 → b.dataCap = 0) :
    ∃ b1 : SliceBuilder, SliceBuilder.reserve es ea b 1 fresh = some b1 ∧
      b1.data = List.replicate b1.start 0 ++ F ∧
      b1.len = b.len ∧ b1.cap ≠ 0 ∧ b1.dataCap ≠ 0 := by
  have hdl : b.data.length = b.start + b.len * es := by
    rw [hdata]
    simp [hF]
  unfold SliceBuilder.reserve
  rw [if_neg (show ¬(b.len + 1 > USIZE_MAX) by omega),
    if_neg (show ¬(b.len + 1 ≤ b.cap) by omega)]
  dsimp only
  have hac : b.len + 1 - b.cap = 1 := by omega
  rw [hac, one_mul]
  rw [if_neg (show ¬(es > USIZE_MAX) by omega), if_neg hes]
  by_cases hea1 : ea = 1
  · rw [if_pos hea1]
    by_cases hsl : es ≤ b.dataCap - b.data.length
    · have hvr : vecReserve b.data.length b.dataCap es b.dataBase fresh
          = (b.dataBase, b.dataCap) := by
        unfold vecReserve
        rw [if_pos hsl]
      rw [hvr]
      dsimp only
      have h2 := (Nat.one_le_div_iff (show 0 < es by omega)).mpr
        (show es ≤ b.dataCap by omega)
      exact ⟨_, rfl, hdata, rfl, by dsimp only; omega, by dsimp only; omega⟩
    · have hvr : vecReserve b.data.length b.dataCap es b.dataBase fresh
          = (fresh, Nat.max (2 * b.dataCap) (b.data.length + es)) := by
        unfold vecReserve
        rw [if_neg hsl]
      rw [hvr]
      have hmx : b.data.length + es ≤ Nat.max (2 * b.dataCap) (b.data.length + es) :=
          Nat.le_max_right (2 * b.dataCap) (b.data.length + es)
      have h2 := (Nat.one_le_div_iff (show 0 < es by omega)).mpr
        (show es ≤ Nat.max (2 * b.dataCap) (b.data.length + es) by omega)
      refine ⟨_, rfl, hdata, rfl, ?_, ?_⟩
      · show Nat.max (2 * b.dataCap) (b.data.length + es) / es ≠ 0
        omega
      · show Nat.max (2 * b.dataCap) (b.data.length + es) ≠ 0
        omega
  · rw [if_neg hea1]
    by_cases hdc : b.dataCap = 0
    · rw [if_pos hdc]
      obtain ⟨hc0, hs0⟩ := hcap0 hdc
      have hlen00 : b.len = 0 := by omega
      have hFnil : F = [] := by
        have h0 : F.length = 0 := by rw [hF, hlen00]; ring
        exact List.eq_nil_of_length_eq_zero h0
      have hdl0 : b.data.length = 0 := by
        rw [hdl, hlen00, hs0]
        ring
      have hvr : vecReserve b.data.length b.dataCap (es + ea - 1) b.dataBase fresh
          = (fresh, es + ea - 1) := by
        unfold vecReserve
        rw [if_neg (show ¬(es + ea - 1 ≤ b.dataCap - b.data.length) by omega)]
        rw [hdc, hdl0]
        have hm0 : Nat.max (2 * 0) (0 + (es + ea - 1)) = es + ea - 1 := by simp
        rw [hm0]
      rw [hvr]
      dsimp only
      have hoff := align_offset_le_mask ea fresh
      have h2 := (Nat.one_le_div_iff (show 0 < es by omega)).mpr
        (show es ≤ es + ea - 1 - align_offset ea fresh by omega)
      refine ⟨_, rfl, ?_, rfl, by dsimp only; omega, by dsimp only; omega⟩
      dsimp only
      rw [hFnil]
      simp
    · rw [if_neg hdc]
      have hlenpos : 0 < b.len := by
        rcases Nat.eq_zero_or_pos b.len with h | h
        · exact absurd (hlen0 h) hdc
        · exact h
      have hles : es ≤ b.len * es := Nat.le_mul_of_pos_left es hlenpos
      have hdrop : b.data.drop b.start = F := by
        rw [hdata]
        exact List.drop_left' (by simp)
      have htake : F.take (b.len * es) = F := by
        rw [← hF]
        exact List.take_length F
      by_cases hsl : es ≤ b.dataCap - b.data.length
      · have hvr : vecReserve b.data.length b.dataCap es b.dataBase fresh
            = (b.dataBase, b.dataCap) := by
          unfold vecReserve
          rw [if_pos hsl]
        rw [hvr]
        dsimp only
        have hoff := align_offset_le_mask ea b.dataBase
        have h2 := (Nat.one_le_div_iff (show 0 < es by omega)).mpr
          (show es ≤ b.dataCap - align_offset ea b.dataBase by omega)
        by_cases hst : b.start = align_offset ea b.dataBase
        · rw [if_pos hst]
          exact ⟨_, rfl, hdata, rfl, by dsimp only; omega, by dsimp only; omega⟩
        · rw [if_neg hst]
          refine ⟨_, rfl, ?_, rfl, by dsimp only; omega, by dsimp only; omega⟩
          dsimp only
          rw [hdrop, htake]
      · have hvr : vecReserve b.data.length b.dataCap es b.dataBase fresh
            = (fresh, Nat.max (2 * b.dataCap) (b.data.length + es)) := by
          unfold vecReserve
          rw [if_neg hsl]
        rw [hvr]
        have hoff := align_offset_le_mask ea fresh
        have hmx : b.data.length + es ≤ Nat.max (2 * b.dataCap) (b.data.length + es) :=
          Nat.le_max_right (2 * b.dataCap) (b.data.length + es)
        have h2 := (Nat.one_le_div_iff (show 0 < es by omega)).mpr
          (show es ≤ Nat.max (2 * b.dataCap) (b.data.length + es)
            - align_offset ea fresh by omega)
        by_cases hst : b.start = align_offset ea fresh
        · rw [if_pos hst]
          refine ⟨_, rfl, hdata, rfl, ?_, ?_⟩
          · show (Nat.max (2 * b.dataCap) (b.data.length + es)
                - align_offset ea fresh) / es ≠ 0
            omega
          · show Nat.max (2 * b.dataCap) (b.data.length + es) ≠ 0
            omega
        · rw [if_neg hst]
          refine ⟨_, rfl, ?_, rfl, ?_, ?_⟩
          · show List.replicate (align_offset ea fresh) 0 ++
                (b.data.drop b.start).take (b.len * es) =
              List.replicate (align_offset ea fresh) 0 ++ F
            rw [hdrop, htake]
          · show (Nat.max (2 * b.dataCap) (b.data.length + es)
                - align_offset ea fresh) / es ≠ 0
            omega
          · show Nat.max (2 * b.dataCap) (b.data.length + es) ≠ 0
            omega

theorem push_spec (es ea : Nat) (hea : 0 < ea) (heas : es ≠ 0 → ea ≤ es)
    (hesm : es ≤ USIZE_MAX)
    (b : SliceBuilder) (elems : List (List Nat)) (v : List Nat) (fresh : Nat)
    (hinv : BuilderInv es elems b)
    (hsz : ∀ x ∈ elems, x.length = es) (hv : v.length = es)
    (hmax : elems.length + 1 ≤ USIZE_MAX) :
    ∃ b1, SliceBuilder.push es ea b v fresh = some b1 ∧
      BuilderInv es (elems ++ [v]) b1 := by
  obtain ⟨hdata, hlen, h3, h4, h5, h6⟩ := hinv
  have hflatlen : elems.flatten.length = elems.length * es :=
    flatten_length_of_sizes es elems hsz
  have hflatapp : (elems ++ [v]).flatten = elems.flatten ++ v := by
    simp
  unfold SliceBuilder.push
  by_cases hfullQ : b.len = b.cap
  · rw [if_pos hfullQ]
    by_cases hes : es = 0
    · obtain ⟨hc, hs, hd⟩ := h6 hes
      omega
    · obtain ⟨b1, hres, hb1data, hb1len, hb1cap, hb1dcap⟩ :=
        reserve_one_spec es ea hes hea (heas hes) hesm b fresh elems.flatten
          hdata (by rw [hflatlen, hlen]) hfullQ (by omega)
          (fun hdc => ⟨(h4 hes hdc).1, (h4 hes hdc).2⟩)
          (fun hl0 => (h5 hes hl0).2.1)
      rw [hres]
      dsimp only
      have htk : b1.data.take (b1.start + b1.len * es) = b1.data := by
        have hlen1 : b1.start + b1.len * es = b1.data.length := by
          rw [hb1data]
          simp [hflatlen, hb1len, hlen]
        rw [hlen1, List.take_length]
      refine ⟨_, rfl, ?_, ?_, ?_, ?_, ?_, ?_⟩
      · show b1.data.take (b1.start + b1.len * es) ++ v
            = List.replicate b1.start 0 ++ (elems ++ [v]).flatten
        rw [htk, hb1data, hflatapp, List.append_assoc]
      · show b1.len + 1 = (elems ++ [v]).length
        simp [hb1len, hlen]
      · intro _ _
        exact ⟨hb1cap, hb1dcap⟩
      · intro _ hdc
        exact absurd hdc hb1dcap
      · intro _ hl
        dsimp only at hl
        omega
      · intro h0
        exact absurd h0 hes
  · rw [if_neg hfullQ]
    have hdl : b.data.length = b.start + b.len * es := by
      rw [hdata]
      simp [hflatlen, hlen]
    have htk : b.data.take (b.start + b.len * es) = b.data := by
      rw [← hdl, List.take_length]
    refine ⟨_, rfl, ?_, ?_, ?_, ?_, ?_, ?_⟩
    · show b.data.take (b.start + b.len * es) ++ v
          = List.replicate b.start 0 ++ (elems ++ [v]).flatten
      rw [htk, hdata, hflatapp, List.append_assoc]
    · show b.len + 1 = (elems ++ [v]).length
      simp [hlen]
    · intro hes _
      have hlpos : 0 < b.len := by
        rcases Nat.eq_zero_or_pos b.len with h0 | h0
        · have := (h5 hes h0).1
          omega
        · exact h0
      refine ⟨?_, (h3 hes hlpos).2⟩
      show b.cap ≠ 0
      omega
    · intro hes hdc
      exact h4 hes hdc
    · intro _ hl
      dsimp only at hl
      omega
    · intro h0
      obtain ⟨hc, hs, hd⟩ := h6 h0
      exact ⟨hc, hs, hd⟩

theorem pushMany_spec (es ea : Nat) (f : Nat → Nat) (hea : 0 < ea)
    (heas : es ≠ 0 → ea ≤ es) (hesm : es ≤ USIZE_MAX) :
    ∀ (vs : List (List Nat)) (k : Nat) (b : SliceBuilder) (elems : List (List Nat)),
      BuilderInv es elems b →
      (∀ x ∈ elems, x.length = es) →
      (∀ x ∈ vs, x.length = es) →
      elems.length + vs.length ≤ USIZE_MAX →
      ∃ b1, SliceBuilder.pushMany es ea f vs k b = some b1 ∧
        BuilderInv es (elems ++ vs) b1 := by
  intro vs
  induction vs with
  | nil =>
    intro k b elems hinv _ _ _
    exact ⟨b, rfl, by simpa using hinv⟩
  | cons w ws ih =>
    intro k b elems hinv hsz hvs hbound
    obtain ⟨b1, hp, hinv1⟩ := push_spec es ea hea heas hesm b elems w (f k) hinv hsz
      (hvs w (by simp)) (by simp at hbound; omega)
    unfold SliceBuilder.pushMany
    rw [hp]
    dsimp only
    have hsz1 : ∀ x ∈ elems ++ [w], x.length = es := by
      intro x hx
      rcases List.mem_append.mp hx with h | h
      · exact hsz x h
      · simp at h
        rw [h]
        exact hvs w (by simp)
    obtain ⟨b2, hp2, hinv2⟩ := ih (k + 1) b1 (elems ++ [w]) hinv1 hsz1
      (fun x hx => hvs x (by simp [hx]))
      (by simp at hbound ⊢; omega)
    refine ⟨b2, hp2, ?_⟩
    have hassoc : (elems ++ [w]) ++ ws = elems ++ w :: ws := by simp
    rw [← hassoc]
    exact hinv2

theorem chunksOfN_flatten (es : Nat) :
    ∀ (elems : List (List Nat)), (∀ x ∈ elems, x.length = es) →
      chunksOfN es elems.length elems.flatten = elems := by
  intro elems
  induction elems with
  | nil =>
    intro _
    rfl
  | cons v vs ih =>
    intro h
    have hv : v.length = es := h v (by simp)
    show chunksOfN es (vs.length + 1) ((v :: vs).flatten) = v :: vs
    rw [List.flatten_cons]
    unfold chunksOfN
    rw [List.take_left' hv, List.drop_left' hv,
      ih (fun x hx => h x (by simp [hx]))]

theorem finalize_spec (es : Nat) (b : SliceBuilder) (s : DataInternerInner)
    (elems : List (List Nat)) (hinv : BuilderInv es elems b)
    (hsz : ∀ x ∈ elems, x.length = es) :
    (SliceBuilder.finalize es b s).1 = elems := by
  obtain ⟨hdata, hlen, h3, h4, h5, h6⟩ := hinv
  unfold SliceBuilder.finalize
  by_cases hes : es = 0
  · rw [if_pos hes]
    dsimp only
    symm
    rw [List.eq_replicate_iff]
    refine ⟨hlen.symm, ?_⟩
    intro x hx
    have hx0 := hsz x hx
    rw [hes] at hx0
    exact List.eq_nil_of_length_eq_zero hx0
  · rw [if_neg hes]
    by_cases hc : b.cap = 0
    · rw [if_pos hc]
      dsimp only
      have hl0 : b.len = 0 := by
        rcases Nat.eq_zero_or_pos b.len with h0 | h0
        · exact h0
        · exact absurd hc (h3 hes h0).1
      have hnil : elems = [] := List.eq_nil_of_length_eq_zero (by omega)
      rw [hnil]
    · rw [if_neg hc]
      have hlpos : 0 < b.len := by
        rcases Nat.eq_zero_or_pos b.len with h0 | h0
        · exact absurd (h5 hes h0).1 hc
        · exact h0
      have hdcap : b.dataCap ≠ 0 := (h3 hes hlpos).2
      dsimp only
      have hpub : (DataInterner.add_owned_bytes s ⟨b.dataBase, b.dataCap, b.data⟩).1
          = ⟨b.dataBase, b.data⟩ := by
        unfold DataInterner.add_owned_bytes
        rw [if_neg hdcap]
        exact add_owned_bytes_fst s ⟨b.dataBase, b.dataCap, b.data⟩ hdcap
      rw [hpub]
      dsimp only
      have hdrop : b.data.drop b.start = elems.flatten := by
        rw [hdata]
        exact List.drop_left' (by simp)
      rw [hdrop, hlen]
      exact chunksOfN_flatten es elems hsz

/-- C4: pushing any sequence of elements into a fresh builder and finalizing
yields exactly that sequence, byte-for-byte and in push order, for every
element size and power-of-two-style alignment with `align ≤ size` (including
size 0, size 1 with alignment 1, and sizes above 1 with larger alignments),
any prior pool state, and any allocator placements for the reallocations. -/
theorem c4_builder_round_trip (es ea : Nat) (f : Nat → Nat) (s : DataInternerInner)
    (vs : List (List Nat)) (hsz : ∀ v ∈ vs, v.length = es)
    (hea : 0 < ea) (heas : es ≠ 0 → ea ≤ es)
    (hn : vs.length ≤ USIZE_MAX) (hesm : es ≤ USIZE_MAX) :
    (SliceBuilder.pushMany es ea f vs 0 (SliceBuilder.new es)).map
      (fun b => (SliceBuilder.finalize es b s).1) = some vs := by
  obtain ⟨b1, hp, hinv⟩ := pushMany_spec es ea f hea heas hesm vs 0
    (SliceBuilder.new es) [] (builderInv_new es) (by simp) hsz (by simpa using hn)
  rw [hp]
  have hfin := finalize_spec es b1 s vs (by simpa using hinv) hsz
  simp [hfin]

/-- C4 witness: three two-byte elements of alignment 2 pushed into a fresh
builder and finalized into an empty pool. -/
theorem c4_builder_round_trip_witness :
    (SliceBuilder.pushMany 2 2 (fun _ => 0) [[1, 2], [3, 4], [5, 6]] 0
        (SliceBuilder.new 2)).map
      (fun b => (SliceBuilder.finalize 2 b ⟨[], []⟩).1) =
      some [[1, 2], [3, 4], [5, 6]] :=
  c4_builder_round_trip 2 2 (fun _ => 0) ⟨[], []⟩ [[1, 2], [3, 4], [5, 6]]
    (by decide) (by decide) (fun _ => by decide) (by decide) (by decide)
